import Mathlib

/-!
Shallow embedding of the dependency-resolution core of
`maven_decoder_mcp/maven_analyzer.py` (class `MavenDependencyAnalyzer`),
together with theorems checking the specification's claims about it.

Python dicts keyed by strings are embedded as functions `String → Option _`
or as association lists, Python sets of strings as duplicate-free
`List String` (only membership is ever observed), and the recursive
walk's shared mutable `visited` set as explicit state threading.
-/

namespace Maven

/-- One declared exclusion entry, a group/artifact pair
(`_extract_dependency_info`, lines 152-163). -/
structure Exclusion where
  groupId : String
  artifactId : String
deriving DecidableEq, Repr

/-- One parsed dependency entry as produced by `_extract_dependency_info`
(lines 127-165): coordinates (version may be absent), scope (default
"compile"), packaging type (default "jar"), optional flag, classifier,
exclusions. -/
structure Dep where
  groupId : String
  artifactId : String
  version : Option String
  scope : String
  type_ : String
  optional : Bool
  classifier : Option String
  exclusions : List Exclusion
deriving DecidableEq, Repr

/-- Convenience constructor: a dependency with all defaulted fields. -/
def mkDep (g a : String) (v : Option String) : Dep :=
  { groupId := g, artifactId := a, version := v, scope := "compile",
    type_ := "jar", optional := false, classifier := none, exclusions := [] }

/-- The coordinate key `f"{groupId}:{artifactId}:{version}"` computed at
line 203.  The Python expression `dep.get('version', 'unknown')` returns the
*stored* value, which is `None` when the descriptor declared no version
(the key 'version' is always present in the dict, so the default 'unknown'
is never taken); the f-string renders `None` as the text "None". -/
def depKey (d : Dep) : String :=
  d.groupId ++ ":" ++ d.artifactId ++ ":" ++
    (match d.version with | some v => v | none => "None")

/-- A transitive-dependency record: the sub-dependency's own fields plus the
"via" key of the dependency that introduced it and the "depth" label (the
`max_depth` value at the level that emitted it), lines 227-231. -/
structure TransDep where
  dep : Dep
  via : String
  depth : Nat
deriving DecidableEq, Repr

/-- `_is_excluded` (lines 246-252): group+artifact match against the declared
exclusions, version-agnostic. -/
def isExcluded (d : Dep) (exclusions : List Exclusion) : Bool :=
  exclusions.any (fun e => d.groupId == e.groupId && d.artifactId == e.artifactId)

/-- The environment of the transitive walk: what
`analyze_dependencies(g, a, v, include_transitive=False)` yields as its
`direct_dependencies` list, or `none` when the descriptor is missing, fails
to parse, or any other exception occurs (the walk catches the failure at
line 241 and skips the branch). -/
def SubRepo : Type := String → String → String → Option (List Dep)

/-- Descriptor lookup performed inside the walk (lines 216-221).  The version
passed down is `dep.get('version', '')`, which is the *stored* `None` when the
version is absent; `_get_pom_path` then raises (Path `/` None), the exception
is caught at line 241 and the branch is skipped — so a version-less dependency
never resolves to a sub-dependency list. -/
def subLookup (repo : SubRepo) (d : Dep) : Option (List Dep) :=
  match d.version with
  | none => none
  | some v => repo d.groupId d.artifactId v

/-- One pass of the loop body of `_resolve_transitive_dependencies`
(lines 200-244) over the list of dependencies of the current level.
`curDepth` is the current `max_depth` (used as the emitted "depth" label) and
`recur` is the resolver for the next level (`max_depth - 1`), threaded the
same shared `visited` set.  Returns the accumulated transitive list and the
final visited set. -/
def resolveStep (repo : SubRepo) (curDepth : Nat)
    (recur : List Dep → List String → List TransDep × List String) :
    List Dep → List String → List TransDep × List String
  | [], visited => ([], visited)
  | dep :: rest, visited =>
    let key := depKey dep
    if key ∈ visited ∨ dep.optional then
      resolveStep repo curDepth recur rest visited
    else
      let visited1 := key :: visited
      if dep.scope = "system" then
        resolveStep repo curDepth recur rest visited1
      else
        match subLookup repo dep with
        | none => resolveStep repo curDepth recur rest visited1
        | some subDeps =>
          let emitted := (subDeps.filter (fun sd => !(isExcluded sd dep.exclusions))).map
            (fun sd => { dep := sd, via := key, depth := curDepth : TransDep })
          let deeper := recur subDeps visited1
          let restRes := resolveStep repo curDepth recur rest deeper.2
          (emitted ++ deeper.1 ++ restRes.1, restRes.2)

/-- `_resolve_transitive_dependencies` (lines 194-244): guard `max_depth <= 0`
returns empty, else run the loop, recursing with `max_depth - 1` into each
resolved dependency's own direct dependencies, sharing one visited set across
the whole walk. -/
def resolveTransitive (repo : SubRepo) :
    Nat → List Dep → List String → List TransDep × List String
  | 0, _, visited => ([], visited)
  | d + 1, deps, visited =>
    resolveStep repo (d + 1) (resolveTransitive repo d) deps visited

/-- The fragment of `analyze_dependencies` relevant to the transitive claims
(lines 94-98): the direct dependencies are reported exactly as parsed, and the
transitive list is the walk started with a fresh empty visited set. -/
structure AnalysisResult where
  directDependencies : List Dep
  transitiveDependencies : List TransDep
deriving DecidableEq, Repr

/-- Lines 94-98 of `analyze_dependencies`: `include_transitive=True` branch. -/
def analyzeWithTransitive (repo : SubRepo) (direct : List Dep) (maxDepth : Nat) :
    AnalysisResult :=
  { directDependencies := direct,
    transitiveDependencies := (resolveTransitive repo maxDepth direct []).1 }

/-- Instrumented copy of `resolveStep` that additionally returns, as a third
component, the trace of coordinate keys whose descriptor was resolved for
sub-dependencies (the `try` block at lines 214-221 was entered), in order.
`resolveStepT_agree` below proves its first two components compute exactly
what `resolveStep` computes. -/
def resolveStepT (repo : SubRepo) (curDepth : Nat)
    (recurT : List Dep → List String → List TransDep × List String × List String) :
    List Dep → List String → List TransDep × List String × List String
  | [], visited => ([], visited, [])
  | dep :: rest, visited =>
    if depKey dep ∈ visited ∨ dep.optional then
      resolveStepT repo curDepth recurT rest visited
    else if dep.scope = "system" then
      resolveStepT repo curDepth recurT rest (depKey dep :: visited)
    else
      match subLookup repo dep with
      | none =>
        let r := resolveStepT repo curDepth recurT rest (depKey dep :: visited)
        (r.1, r.2.1, depKey dep :: r.2.2)
      | some subDeps =>
        let emitted := (subDeps.filter (fun sd => !(isExcluded sd dep.exclusions))).map
          (fun sd => { dep := sd, via := depKey dep, depth := curDepth : TransDep })
        let deeper := recurT subDeps (depKey dep :: visited)
        let restRes := resolveStepT repo curDepth recurT rest deeper.2.1
        (emitted ++ deeper.1 ++ restRes.1, restRes.2.1,
         depKey dep :: (deeper.2.2 ++ restRes.2.2))

/-- Instrumented copy of `resolveTransitive` carrying the expansion trace. -/
def resolveTransitiveT (repo : SubRepo) :
    Nat → List Dep → List String → List TransDep × List String × List String
  | 0, _, visited => ([], visited, [])
  | d + 1, deps, visited =>
    resolveStepT repo (d + 1) (resolveTransitiveT repo d) deps visited

theorem resolveStepT_agree (repo : SubRepo) (curDepth : Nat)
    (recurT : List Dep → List String → List TransDep × List String × List String)
    (recur : List Dep → List String → List TransDep × List String)
    (hrec : ∀ deps vis, ((recurT deps vis).1, (recurT deps vis).2.1) = recur deps vis) :
    ∀ deps vis,
      ((resolveStepT repo curDepth recurT deps vis).1,
       (resolveStepT repo curDepth recurT deps vis).2.1)
        = resolveStep repo curDepth recur deps vis := by
  intro deps
  induction deps with
  | nil => intro vis; rfl
  | cons dep rest ih =>
    intro vis
    simp only [resolveStepT, resolveStep]
    by_cases h1 : depKey dep ∈ vis ∨ dep.optional = true
    · simp only [if_pos h1, ih]
    · simp only [if_neg h1]
      by_cases h2 : dep.scope = "system"
      · simp only [if_pos h2, ih]
      · simp only [if_neg h2]
        cases hS : subLookup repo dep with
        | none => simp only [ih]
        | some subDeps =>
          have h3 := hrec subDeps (depKey dep :: vis)
          have e1 : (recurT subDeps (depKey dep :: vis)).1
              = (recur subDeps (depKey dep :: vis)).1 := by
            rw [← h3]
          have e2 : (recurT subDeps (depKey dep :: vis)).2.1
              = (recur subDeps (depKey dep :: vis)).2 := by
            rw [← h3]
          simp only [e1, e2]
          have e4 : (resolveStepT repo curDepth recurT rest
                (recur subDeps (depKey dep :: vis)).2).1
              = (resolveStep repo curDepth recur rest
                (recur subDeps (depKey dep :: vis)).2).1 := by
            rw [← ih]
          have e5 : (resolveStepT repo curDepth recurT rest
                (recur subDeps (depKey dep :: vis)).2).2.1
              = (resolveStep repo curDepth recur rest
                (recur subDeps (depKey dep :: vis)).2).2 := by
            rw [← ih]
          rw [e4, e5]

theorem resolveTransitiveT_agree (repo : SubRepo) :
    ∀ maxDepth deps vis,
      ((resolveTransitiveT repo maxDepth deps vis).1,
       (resolveTransitiveT repo maxDepth deps vis).2.1)
        = resolveTransitive repo maxDepth deps vis := by
  intro maxDepth
  induction maxDepth with
  | zero => intro deps vis; rfl
  | succ d ih =>
    intro deps vis
    simp only [resolveTransitiveT, resolveTransitive]
    exact resolveStepT_agree repo (d + 1) (resolveTransitiveT repo d)
      (resolveTransitive repo d) ih deps vis

/-- The invariant of the instrumented walk: the visited set only grows, the
trace of expanded keys has no duplicates, and every expanded key was newly
inserted (absent from the incoming visited set, present in the final one). -/
def TraceInv (f : List Dep → List String → List TransDep × List String × List String) :
    Prop :=
  ∀ deps vis,
    (∃ ext, (f deps vis).2.1 = ext ++ vis) ∧
    (f deps vis).2.2.Nodup ∧
    (∀ k ∈ (f deps vis).2.2, k ∉ vis ∧ k ∈ (f deps vis).2.1)

theorem resolveStepT_inv (repo : SubRepo) (curDepth : Nat)
    (recurT : List Dep → List String → List TransDep × List String × List String)
    (hrec : TraceInv recurT) : TraceInv (resolveStepT repo curDepth recurT) := by
  intro deps
  induction deps with
  | nil =>
    intro vis
    refine ⟨⟨[], rfl⟩, List.nodup_nil, ?_⟩
    intro k hk
    simp only [resolveStepT, List.not_mem_nil] at hk
  | cons dep rest ih =>
    intro vis
    simp only [resolveStepT]
    by_cases h1 : depKey dep ∈ vis ∨ dep.optional = true
    · simp only [if_pos h1]
      exact ih vis
    · simp only [if_neg h1]
      have hkey : depKey dep ∉ vis := fun hmem => h1 (Or.inl hmem)
      by_cases h2 : dep.scope = "system"
      · simp only [if_pos h2]
        obtain ⟨⟨ext, hext⟩, hnd, hmem⟩ := ih (depKey dep :: vis)
        refine ⟨⟨ext ++ [depKey dep], by rw [hext]; simp⟩, hnd, ?_⟩
        intro k hk
        obtain ⟨hk1, hk2⟩ := hmem k hk
        exact ⟨fun h => hk1 (List.mem_cons_of_mem _ h), hk2⟩
      · simp only [if_neg h2]
        cases hS : subLookup repo dep with
        | none =>
          obtain ⟨⟨ext, hext⟩, hnd, hmem⟩ := ih (depKey dep :: vis)
          refine ⟨⟨ext ++ [depKey dep], by rw [hext]; simp⟩, ?_, ?_⟩
          · refine List.nodup_cons.mpr ⟨?_, hnd⟩
            intro hc
            exact (hmem _ hc).1 (List.mem_cons_self _ _)
          · intro k hk
            rcases List.mem_cons.mp hk with hk | hk
            · subst hk
              exact ⟨hkey, by rw [hext]; simp⟩
            · obtain ⟨hk1, hk2⟩ := hmem k hk
              exact ⟨fun h => hk1 (List.mem_cons_of_mem _ h), hk2⟩
        | some subDeps =>
          obtain ⟨⟨extD, hextD⟩, hndD, hmemD⟩ := hrec subDeps (depKey dep :: vis)
          obtain ⟨⟨extR, hextR⟩, hndR, hmemR⟩ :=
            ih (recurT subDeps (depKey dep :: vis)).2.1
          simp only []
          constructor
          · exact ⟨extR ++ extD ++ [depKey dep], by rw [hextR, hextD]; simp⟩
          constructor
          · -- Nodup of key :: (deeperTrace ++ restTrace)
            refine List.nodup_cons.mpr ⟨?_, ?_⟩
            · intro hc
              rcases List.mem_append.mp hc with hc | hc
              · exact (hmemD _ hc).1 (List.mem_cons_self _ _)
              · exact (hmemR _ hc).1 (by rw [hextD]; simp)
            · refine List.Nodup.append hndD hndR ?_
              intro k hkD hkR
              exact (hmemR _ hkR).1 (hmemD _ hkD).2
          · intro k hk
            rcases List.mem_cons.mp hk with hk | hk
            · subst hk
              refine ⟨hkey, ?_⟩
              rw [hextR, hextD]; simp
            · rcases List.mem_append.mp hk with hk | hk
              · obtain ⟨hk1, hk2⟩ := hmemD k hk
                refine ⟨fun h => hk1 (List.mem_cons_of_mem _ h), ?_⟩
                rw [hextR]
                exact List.mem_append_right _ hk2
              · obtain ⟨hk1, hk2⟩ := hmemR k hk
                refine ⟨?_, hk2⟩
                intro h
                apply hk1
                rw [hextD]
                exact List.mem_append_right _ (List.mem_cons_of_mem _ h)

theorem resolveTransitiveT_inv (repo : SubRepo) :
    ∀ maxDepth, TraceInv (resolveTransitiveT repo maxDepth) := by
  intro maxDepth
  induction maxDepth with
  | zero =>
    intro deps vis
    exact ⟨⟨[], rfl⟩, List.nodup_nil, fun k hk => absurd hk (List.not_mem_nil k)⟩
  | succ d ih =>
    intro deps vis
    exact resolveStepT_inv repo (d + 1) (resolveTransitiveT repo d) ih deps vis

/-! ### Concrete scenarios used by individual claims -/

/-- Cyclic scenario: artifact A declares B as its only dependency and B
declares A. -/
def cycA : Dep := mkDep "g.a" "a" (some "1.0")

/-- Second artifact of the cyclic scenario. -/
def cycB : Dep := mkDep "g.b" "b" (some "1.0")

/-- Repository of the cyclic scenario. -/
def repoCyc : SubRepo := fun g a v =>
  if g = "g.a" ∧ a = "a" ∧ v = "1.0" then some [cycB]
  else if g = "g.b" ∧ a = "b" ∧ v = "1.0" then some [cycA]
  else none

/-- **C4**: the walk (a total function here, so it terminates on every
repository, cyclic ones included) expands each distinct coordinate key at
most once across the entire walk: the instrumented trace of expanded keys
computes the same output and visited set as `resolveTransitive`, is
duplicate-free, and contains only keys not already visited.  Concretely, over
the cyclic graph A→B, B→A, resolving A at `maxDepth` 3 or 5 expands exactly
A once and B once. -/
theorem walk_expands_each_key_at_most_once :
    (∀ (repo : SubRepo) (maxDepth : Nat) (deps : List Dep) (visited : List String),
        ((resolveTransitiveT repo maxDepth deps visited).1,
         (resolveTransitiveT repo maxDepth deps visited).2.1)
          = resolveTransitive repo maxDepth deps visited
      ∧ (resolveTransitiveT repo maxDepth deps visited).2.2.Nodup
      ∧ ∀ k ∈ (resolveTransitiveT repo maxDepth deps visited).2.2, k ∉ visited)
    ∧ (resolveTransitiveT repoCyc 3 [cycA] []).2.2 = ["g.a:a:1.0", "g.b:b:1.0"]
    ∧ (resolveTransitiveT repoCyc 5 [cycA] []).2.2 = ["g.a:a:1.0", "g.b:b:1.0"] := by
  refine ⟨?_, by decide, by decide⟩
  intro repo maxDepth deps visited
  obtain ⟨hext, hnd, hmem⟩ := resolveTransitiveT_inv repo maxDepth deps visited
  exact ⟨resolveTransitiveT_agree repo maxDepth deps visited, hnd,
    fun k hk => (hmem k hk).1⟩

/-- Witness for `walk_expands_each_key_at_most_once` at the cyclic scenario. -/
theorem walk_expands_each_key_at_most_once_witness :
    (resolveTransitiveT repoCyc 3 [cycA] []).2.2.Nodup
      ∧ "g.a:a:1.0" ∉ ([] : List String) :=
  ⟨(walk_expands_each_key_at_most_once.1 repoCyc 3 [cycA] []).2.1,
   (walk_expands_each_key_at_most_once.1 repoCyc 3 [cycA] []).2.2 "g.a:a:1.0"
     (by decide)⟩

/-- Optional-dependency scenario: the root declares `optB`, whose descriptor
declares the optional dependency `optC`. -/
def optB : Dep := mkDep "g.b" "b" (some "1.0")

/-- The optional sub-dependency of the optional-dependency scenario. -/
def optC : Dep := { mkDep "g.c" "c" (some "1.0") with optional := true }

/-- Repository of the optional-dependency scenario. -/
def repoOpt : SubRepo := fun g a v =>
  if g = "g.b" ∧ a = "b" ∧ v = "1.0" then some [optC] else none

/-- **C2 counterexample**: an `optional = true` dependency declared by an
expanded dependency *does* appear among the transitive dependencies — the
emission at lines 224-231 filters only on exclusions, not on the
sub-dependency's own optional flag or scope. -/
theorem optional_dep_appears_in_transitive_cex :
    (analyzeWithTransitive repoOpt [optB] 3).transitiveDependencies
        = [{ dep := optC, via := "g.b:b:1.0", depth := 3 }]
      ∧ optC.optional = true := by decide

/-- **C2 amended**: a dependency with `optional = true` or `scope = system`
is skipped at the point the walk processes it — it is never expanded and
itself contributes no transitive entries (an optional one without touching
the visited set, a system-scoped one after its key is inserted) — and a
direct dependency is always reported among the direct dependencies; but such
a dependency *can* still appear among the transitive dependencies when some
other expanded dependency declares it (see the counterexample). -/
theorem optional_system_skipped_not_expanded
    (repo : SubRepo) (curDepth : Nat)
    (recur : List Dep → List String → List TransDep × List String)
    (dep : Dep) (rest : List Dep) (vis : List String)
    (direct : List Dep) (maxDepth : Nat) :
    (dep.optional = true →
      resolveStep repo curDepth recur (dep :: rest) vis
        = resolveStep repo curDepth recur rest vis)
    ∧ (dep.optional = false → depKey dep ∉ vis → dep.scope = "system" →
      resolveStep repo curDepth recur (dep :: rest) vis
        = resolveStep repo curDepth recur rest (depKey dep :: vis))
    ∧ (dep.optional = true ∨ dep.scope = "system" →
      (analyzeWithTransitive repo [dep] maxDepth).transitiveDependencies = [])
    ∧ (dep ∈ direct →
      dep ∈ (analyzeWithTransitive repo direct maxDepth).directDependencies) := by
  refine ⟨?_, ?_, ?_, ?_⟩
  · intro h
    simp [resolveStep, h]
  · intro ho hm hs
    simp [resolveStep, ho, hm, hs]
  · intro h
    cases maxDepth with
    | zero => rfl
    | succ d =>
      show (resolveStep repo (d + 1) (resolveTransitive repo d) [dep] []).1 = []
      by_cases ho : dep.optional = true
      · simp [resolveStep, ho]
      · rcases h with h | h
        · exact absurd h ho
        · simp [resolveStep, ho, h]
  · intro h
    exact h

/-- Witness for `optional_system_skipped_not_expanded`. -/
theorem optional_system_skipped_not_expanded_witness :
    (optC.optional = true
      ∧ resolveStep repoOpt 3 (resolveTransitive repoOpt 2) (optC :: []) []
          = resolveStep repoOpt 3 (resolveTransitive repoOpt 2) [] [])
      ∧ (analyzeWithTransitive repoOpt [optC] 3).transitiveDependencies = []
      ∧ optC ∈ (analyzeWithTransitive repoOpt [optC] 3).directDependencies :=
  ⟨⟨rfl, (optional_system_skipped_not_expanded repoOpt 3
      (resolveTransitive repoOpt 2) optC [] [] [optC] 3).1 rfl⟩,
   (optional_system_skipped_not_expanded repoOpt 3
      (resolveTransitive repoOpt 2) optC [] [] [optC] 3).2.2.1 (Or.inl rfl),
   (optional_system_skipped_not_expanded repoOpt 3
      (resolveTransitive repoOpt 2) optC [] [] [optC] 3).2.2.2 (by decide)⟩

/-- System-scope ordering scenario: two declarations of the same coordinate,
a system-scoped one first and a compile-scoped one second; the coordinate's
descriptor declares `sysE`. -/
def sysD : Dep := { mkDep "g.x" "x" (some "1.0") with scope := "system" }

/-- The same coordinate as `sysD` with the default compile scope. -/
def normD : Dep := mkDep "g.x" "x" (some "1.0")

/-- A sub-dependency that would be emitted if `normD` were expanded. -/
def sysE : Dep := mkDep "g.e" "e" (some "1.0")

/-- Repository of the system-scope ordering scenario. -/
def repoSys : SubRepo := fun g a v =>
  if g = "g.x" ∧ a = "x" ∧ v = "1.0" then some [sysE] else none

/-- **C3 counterexample**: the code inserts the key of a system-scoped
dependency into the visited set (lines 208-212 add to `visited` *before* the
system-scope test), so the same coordinate reached later with compile scope
is *not* expanded: the walk over `[sysD, normD]` emits nothing, while the
claim predicts the key stays out of `visited` and `normD` is still expanded
(which would emit `sysE`). -/
theorem system_scope_key_inserted_cex :
    (resolveTransitive repoSys 3 [sysD, normD] []).1 = []
      ∧ depKey sysD ∈ (resolveTransitive repoSys 3 [sysD, normD] []).2 := by decide

/-- **C3 amended**: the visited/optional part of the skip test is evaluated
before the key is inserted (such a skip leaves the visited set unchanged),
but the system-scope test is evaluated *after* the insertion: the key of a
dependency skipped for `scope = system` is inserted into the visited set, and
a coordinate whose key is already visited is never expanded regardless of its
scope. -/
theorem visited_ordering_amended
    (repo : SubRepo) (curDepth : Nat)
    (recur : List Dep → List String → List TransDep × List String)
    (dep dep2 : Dep) (rest : List Dep) (vis : List String) :
    (depKey dep ∈ vis ∨ dep.optional = true →
      resolveStep repo curDepth recur (dep :: rest) vis
        = resolveStep repo curDepth recur rest vis)
    ∧ (dep.optional = false → depKey dep ∉ vis → dep.scope = "system" →
      resolveStep repo curDepth recur (dep :: rest) vis
        = resolveStep repo curDepth recur rest (depKey dep :: vis))
    ∧ (depKey dep2 ∈ vis →
      resolveStep repo curDepth recur (dep2 :: rest) vis
        = resolveStep repo curDepth recur rest vis) := by
  refine ⟨?_, ?_, ?_⟩
  · intro h
    simp only [resolveStep, if_pos h]
  · intro ho hm hs
    simp [resolveStep, ho, hm, hs]
  · intro h
    simp only [resolveStep, if_pos (Or.inl h)]

/-- Witness for `visited_ordering_amended` at the system-scope scenario. -/
theorem visited_ordering_amended_witness :
    (sysD.optional = false ∧ depKey sysD ∉ ([] : List String)
      ∧ sysD.scope = "system"
      ∧ resolveStep repoSys 3 (resolveTransitive repoSys 2) (sysD :: [normD]) []
          = resolveStep repoSys 3 (resolveTransitive repoSys 2) [normD]
              (depKey sysD :: []))
      ∧ (depKey normD ∈ [depKey sysD]
        ∧ resolveStep repoSys 3 (resolveTransitive repoSys 2) (normD :: [])
              [depKey sysD]
            = resolveStep repoSys 3 (resolveTransitive repoSys 2) []
              [depKey sysD]) :=
  ⟨⟨rfl, by decide, rfl,
    (visited_ordering_amended repoSys 3 (resolveTransitive repoSys 2)
      sysD sysD [normD] []).2.1 rfl (by decide) rfl⟩,
   ⟨by decide,
    (visited_ordering_amended repoSys 3 (resolveTransitive repoSys 2)
      sysD normD [] [depKey sysD]).2.2 (by decide)⟩⟩

/-! ### Exclusion handling -/

/-- The universe of dependency records a walk over `repo` started from
`roots` can ever process: the root dependencies plus every entry of every
sub-dependency list the repository can return. -/
def InWorld (repo : SubRepo) (roots : List Dep) (d : Dep) : Prop :=
  d ∈ roots ∨ ∃ g a v l, repo g a v = some l ∧ d ∈ l

/-- Provenance invariant: every emitted transitive entry was emitted while
expanding some dependency of the world; its `via` field is that dependency's
key and it survived that dependency's exclusion filter. -/
def EmitInv (repo : SubRepo) (roots : List Dep)
    (f : List Dep → List String → List TransDep × List String) : Prop :=
  ∀ deps vis, (∀ d ∈ deps, InWorld repo roots d) →
    ∀ t ∈ (f deps vis).1, ∃ dep, InWorld repo roots dep ∧ t.via = depKey dep
      ∧ isExcluded t.dep dep.exclusions = false

theorem resolveStep_emitInv (repo : SubRepo) (roots : List Dep) (curDepth : Nat)
    (recur : List Dep → List String → List TransDep × List String)
    (hrec : EmitInv repo roots recur) :
    EmitInv repo roots (resolveStep repo curDepth recur) := by
  intro deps
  induction deps with
  | nil =>
    intro vis _ t ht
    simp only [resolveStep, List.not_mem_nil] at ht
  | cons dep rest ih =>
    intro vis hdeps t ht
    have hdep : InWorld repo roots dep := hdeps dep (List.mem_cons_self _ _)
    have hrest : ∀ d ∈ rest, InWorld repo roots d :=
      fun d hd => hdeps d (List.mem_cons_of_mem _ hd)
    simp only [resolveStep] at ht
    by_cases h1 : depKey dep ∈ vis ∨ dep.optional = true
    · rw [if_pos h1] at ht
      exact ih vis hrest t ht
    · rw [if_neg h1] at ht
      by_cases h2 : dep.scope = "system"
      · rw [if_pos h2] at ht
        exact ih _ hrest t ht
      · rw [if_neg h2] at ht
        cases hS : subLookup repo dep with
        | none =>
          rw [hS] at ht
          exact ih _ hrest t ht
        | some subDeps =>
          rw [hS] at ht
          have hsubworld : ∀ d ∈ subDeps, InWorld repo roots d := by
            intro d hd
            right
            unfold subLookup at hS
            cases hv : dep.version with
            | none => rw [hv] at hS; cases hS
            | some v =>
              rw [hv] at hS
              exact ⟨dep.groupId, dep.artifactId, v, subDeps, hS, hd⟩
          rcases List.mem_append.mp ht with ht | ht
          · rcases List.mem_append.mp ht with ht | ht
            · obtain ⟨sd, hsd, hteq⟩ := List.mem_map.mp ht
              obtain ⟨hsdmem, hsdkeep⟩ := List.mem_filter.mp hsd
              refine ⟨dep, hdep, ?_, ?_⟩
              · rw [← hteq]
              · rw [← hteq]
                simpa using hsdkeep
            · exact hrec subDeps _ hsubworld t ht
          · exact ih _ hrest t ht

theorem resolveTransitive_emitInv (repo : SubRepo) (roots : List Dep) :
    ∀ maxDepth, EmitInv repo roots (resolveTransitive repo maxDepth) := by
  intro maxDepth
  induction maxDepth with
  | zero =>
    intro deps vis _ t ht
    simp only [resolveTransitive, List.not_mem_nil] at ht
  | succ d ih =>
    intro deps vis hdeps t ht
    exact resolveStep_emitInv repo roots (d + 1) (resolveTransitive repo d)
      ih deps vis hdeps t ht

/-- **C7**: if every dependency of the walk's world that carries D's
coordinate key declares an exclusion on (g, a) — in particular when D is the
unique declaration with that key, coordinate keys being the walk's sole
notion of identity — then no transitive entry with group g, artifact a and
`via` equal to D's key is ever emitted, whatever the excluded entry's
version, even when D's own descriptor declares (g, a) as a direct
dependency. -/
theorem exclusion_suppresses_introduced_edge
    (repo : SubRepo) (roots : List Dep) (maxDepth : Nat) (vis : List String)
    (D : Dep) (g a : String)
    (hx : ∀ dep, InWorld repo roots dep → depKey dep = depKey D →
      (⟨g, a⟩ : Exclusion) ∈ dep.exclusions) :
    ∀ t ∈ (resolveTransitive repo maxDepth roots vis).1,
      ¬(t.via = depKey D ∧ t.dep.groupId = g ∧ t.dep.artifactId = a) := by
  rintro t ht ⟨hvia, hg, ha⟩
  obtain ⟨dep, hw, hkey, hexcl⟩ :=
    resolveTransitive_emitInv repo roots maxDepth roots vis
      (fun d hd => Or.inl hd) t ht
  have hmem : (⟨g, a⟩ : Exclusion) ∈ dep.exclusions :=
    hx dep hw (hkey.symm.trans hvia)
  have : isExcluded t.dep dep.exclusions = true := by
    unfold isExcluded
    refine List.any_eq_true.mpr ⟨⟨g, a⟩, hmem, ?_⟩
    simp [hg, ha]
  rw [this] at hexcl
  cases hexcl

/-- Exclusion scenario: `exD` declares sub-dependencies `exE` (matching its
own exclusion on group "ex", artifact "lib") and `exF`; `exE`'s descriptor in
turn declares `exG`. -/
def exD : Dep :=
  { mkDep "com.d" "d" (some "1.0") with exclusions := [⟨"ex", "lib"⟩] }

/-- The excluded sub-dependency of the exclusion scenario. -/
def exE : Dep := mkDep "ex" "lib" (some "1.0")

/-- The non-excluded sub-dependency of the exclusion scenario. -/
def exF : Dep := mkDep "g.f" "f" (some "1.0")

/-- The dependency declared by the excluded artifact's own descriptor. -/
def exG : Dep := mkDep "g.g" "g" (some "1.0")

/-- Repository of the exclusion scenario. -/
def repoExc : SubRepo := fun g a v =>
  if g = "com.d" ∧ a = "d" ∧ v = "1.0" then some [exE, exF]
  else if g = "ex" ∧ a = "lib" ∧ v = "1.0" then some [exG]
  else none

/-- Witness for `exclusion_suppresses_introduced_edge` at the exclusion
scenario: the entry actually emitted via `exD` is `exF`, not the excluded
(ex, lib). -/
theorem exclusion_suppresses_introduced_edge_witness :
    ¬(({ dep := exF, via := "com.d:d:1.0", depth := 3 } : TransDep).via = depKey exD
      ∧ exF.groupId = "ex" ∧ exF.artifactId = "lib") := by
  refine exclusion_suppresses_introduced_edge repoExc [exD] 3 [] exD "ex" "lib"
    ?_ { dep := exF, via := "com.d:d:1.0", depth := 3 } (by decide)
  intro dep hw hkey
  rcases hw with hw | ⟨g, a, v, l, hr, hmem⟩
  · rw [List.mem_singleton] at hw
    subst hw
    decide
  · simp only [repoExc] at hr
    split at hr
    · injection hr with hl
      subst hl
      rcases List.mem_cons.mp hmem with hmem | hmem
      · subst hmem; exact absurd hkey (by decide)
      · rw [List.mem_singleton] at hmem
        subst hmem; exact absurd hkey (by decide)
    · split at hr
      · injection hr with hl
        subst hl
        rw [List.mem_singleton] at hmem
        subst hmem; exact absurd hkey (by decide)
      · cases hr

/-- **C9**: an exclusion suppresses only the direct edge, not the subtree:
in the exclusion scenario the excluded (ex, lib) is itself never emitted,
yet its key is inserted into the visited set, the walk recurses into its
descriptor, and its own dependency `exG` is emitted with `via` equal to the
excluded artifact's key — because the recursion at lines 233-238 is run on
the *unfiltered* sub-dependency list. -/
theorem exclusion_spares_subtree :
    "ex:lib:1.0" ∈ (resolveTransitive repoExc 3 [exD] []).2
      ∧ ({ dep := exG, via := "ex:lib:1.0", depth := 2 } : TransDep)
          ∈ (resolveTransitive repoExc 3 [exD] []).1
      ∧ (resolveTransitive repoExc 3 [exD] []).1.all
          (fun t => !(t.dep.groupId == "ex" && t.dep.artifactId == "lib")) = true := by
  decide

/-! ### Conflict detection (`_analyze_conflicts`, lines 254-294) -/

/-- First-occurrence deduplication with an accumulator of already-seen
elements.  `dedupKeys` below reproduces the key iteration order of a Python
dict built by insertion, and serves as a deterministic representative for the
iteration of a Python set (whose order the language does not fix — the
theorems use the result only up to membership and duplicate-freeness). -/
def dedupFrom {α : Type} [DecidableEq α] (seen : List α) : List α → List α
  | [] => []
  | k :: rest =>
    if k ∈ seen then dedupFrom seen rest else k :: dedupFrom (k :: seen) rest

/-- First-occurrence deduplication of a list. -/
def dedupKeys {α : Type} [DecidableEq α] (l : List α) : List α := dedupFrom [] l

theorem mem_dedupFrom {α : Type} [DecidableEq α] (x : α) :
    ∀ (l seen : List α), x ∈ dedupFrom seen l ↔ x ∈ l ∧ x ∉ seen := by
  intro l
  induction l with
  | nil => intro seen; simp [dedupFrom]
  | cons k rest ih =>
    intro seen
    by_cases hk : k ∈ seen
    · rw [show dedupFrom seen (k :: rest) = dedupFrom seen rest from by
        simp [dedupFrom, hk]]
      rw [ih]
      constructor
      · rintro ⟨h1, h2⟩
        exact ⟨List.mem_cons_of_mem _ h1, h2⟩
      · rintro ⟨h1, h2⟩
        rcases List.mem_cons.mp h1 with h1 | h1
        · exact absurd (h1 ▸ hk) h2
        · exact ⟨h1, h2⟩
    · rw [show dedupFrom seen (k :: rest) = k :: dedupFrom (k :: seen) rest from by
        simp [dedupFrom, hk]]
      constructor
      · intro h
        rcases List.mem_cons.mp h with h | h
        · subst h
          exact ⟨List.mem_cons_self _ _, hk⟩
        · obtain ⟨h1, h2⟩ := (ih (k :: seen)).mp h
          exact ⟨List.mem_cons_of_mem _ h1,
            fun hc => h2 (List.mem_cons_of_mem _ hc)⟩
      · rintro ⟨h1, h2⟩
        rcases List.mem_cons.mp h1 with h1 | h1
        · exact h1 ▸ List.mem_cons_self _ _
        · by_cases hx : x = k
          · exact hx ▸ List.mem_cons_self _ _
          · refine List.mem_cons_of_mem _ ((ih (k :: seen)).mpr ⟨h1, ?_⟩)
            intro hc
            rcases List.mem_cons.mp hc with hc | hc
            · exact hx hc
            · exact h2 hc

theorem nodup_dedupFrom {α : Type} [DecidableEq α] :
    ∀ (l seen : List α), (dedupFrom seen l).Nodup := by
  intro l
  induction l with
  | nil => intro seen; simp [dedupFrom]
  | cons k rest ih =>
    intro seen
    simp only [dedupFrom]
    by_cases hk : k ∈ seen
    · rw [if_pos hk]; exact ih seen
    · rw [if_neg hk]
      refine List.nodup_cons.mpr ⟨?_, ih (k :: seen)⟩
      intro hc
      exact ((mem_dedupFrom k rest (k :: seen)).mp hc).2 (List.mem_cons_self _ _)

theorem mem_dedupKeys {α : Type} [DecidableEq α] (x : α) (l : List α) :
    x ∈ dedupKeys l ↔ x ∈ l := by
  unfold dedupKeys
  rw [mem_dedupFrom]
  simp

theorem nodup_dedupKeys {α : Type} [DecidableEq α] (l : List α) :
    (dedupKeys l).Nodup := nodup_dedupFrom l []

/-- One occurrence record collected by `_analyze_conflicts` (lines 266-270
for direct dependencies, 277-282 for transitive ones; a direct occurrence
carries no "via" entry, embedded as `none`). -/
structure Occurrence where
  version : Option String
  source : String
  via : Option String
  scope : String
deriving DecidableEq, Repr

/-- The `f"{groupId}:{artifactId}"` grouping key (lines 263 and 274). -/
def gaKey (g a : String) : String := g ++ ":" ++ a

/-- The flat (grouping key, occurrence) pairs in collection order: direct
dependencies first, then transitive ones. -/
def collectOccs (direct : List Dep) (transitive : List TransDep) :
    List (String × Occurrence) :=
  direct.map (fun d => (gaKey d.groupId d.artifactId,
      ⟨d.version, "direct", none, d.scope⟩))
    ++ transitive.map (fun t => (gaKey t.dep.groupId t.dep.artifactId,
      ⟨t.dep.version, "transitive", some t.via, t.dep.scope⟩))

/-- One emitted conflict record (lines 288-292).  Python materializes the
version set as `list(set(...))`, whose iteration order is unspecified; the
embedding fixes first-occurrence order. -/
structure Conflict where
  artifact : String
  versions : List String
  sources : List Occurrence
deriving DecidableEq, Repr

/-- The distinct declared versions of a list of occurrences, ignoring absent
(`None`) and empty versions: the Python truthiness test `if v['version']` at
line 286. -/
def truthyVersions (occs : List Occurrence) : List String :=
  occs.filterMap (fun o => match o.version with
    | none => none
    | some s => if s = "" then none else some s)

/-- `_analyze_conflicts` (lines 254-294): group every direct and transitive
dependency by group:artifact (dict insertion order) and emit one conflict per
group having more than one distinct truthy version. -/
def analyzeConflicts (direct : List Dep) (transitive : List TransDep) :
    List Conflict :=
  (dedupKeys ((collectOccs direct transitive).map Prod.fst)).filterMap (fun k =>
    if 1 < (dedupKeys (truthyVersions
        (((collectOccs direct transitive).filter (fun p => p.1 == k)).map
          Prod.snd))).length then
      some ⟨k, dedupKeys (truthyVersions
        (((collectOccs direct transitive).filter (fun p => p.1 == k)).map
          Prod.snd)),
        ((collectOccs direct transitive).filter (fun p => p.1 == k)).map
          Prod.snd⟩
    else none)

/-- The distinct truthy versions declared for grouping key `key` across the
direct and transitive dependency lists. -/
def groupVersions (direct : List Dep) (transitive : List TransDep)
    (key : String) : List String :=
  dedupKeys (truthyVersions
    (((collectOccs direct transitive).filter (fun p => p.1 == key)).map
      Prod.snd))

theorem countP_artifact_filterMap (f : String → Option Conflict)
    (hf : ∀ k c, f k = some c → c.artifact = k) (key : String) :
    ∀ l : List String, l.Nodup →
      (l.filterMap f).countP (fun c => c.artifact == key)
        = if key ∈ l ∧ (f key).isSome then 1 else 0 := by
  intro l
  induction l with
  | nil =>
    intro _
    simp
  | cons k rest ih =>
    intro hnd
    obtain ⟨hk, hrest⟩ := List.nodup_cons.mp hnd
    rw [List.filterMap_cons]
    by_cases hkey : key = k
    · subst hkey
      cases hfk : f key with
      | none =>
        rw [ih hrest]
        simp [hfk]
      | some c =>
        have hart : c.artifact = key := hf key c hfk
        rw [List.countP_cons, ih hrest]
        simp [hart, hfk, hk]
    · cases hfk : f k with
      | none =>
        rw [ih hrest]
        simp [List.mem_cons, hkey]
      | some c =>
        have hart : c.artifact = k := hf k c hfk
        have hbeq : (c.artifact == key) = false := by
          rw [hart]
          exact beq_eq_false_iff_ne.mpr (fun h => hkey h.symm)
        rw [List.countP_cons, ih hrest, hbeq]
        simp [List.mem_cons, hkey]

/-- If no occurrence carries the key, the key's version group is empty. -/
theorem groupVersions_eq_nil (direct : List Dep) (transitive : List TransDep)
    (key : String)
    (h : key ∉ (collectOccs direct transitive).map Prod.fst) :
    groupVersions direct transitive key = [] := by
  unfold groupVersions
  have hfil : (collectOccs direct transitive).filter (fun p => p.1 == key) = [] := by
    rw [List.filter_eq_nil_iff]
    intro p hp hbeq
    apply h
    have : p.1 = key := by simpa using hbeq
    rw [← this]
    exact List.mem_map_of_mem Prod.fst hp
  rw [hfil]
  rfl

/-- **C5**: grouping direct and transitive dependencies by group:artifact,
`_analyze_conflicts` emits exactly one conflict entry for a grouping key if
and only if that key has strictly more than one distinct non-absent declared
version; concretely, a direct `lib:core:1.0` plus a transitive `lib:core:2.0`
produce exactly one conflict for `lib:core` with version set 1.0, 2.0. -/
theorem conflict_iff_multiple_distinct_versions :
    (∀ (direct : List Dep) (transitive : List TransDep) (key : String),
      (analyzeConflicts direct transitive).countP (fun c => c.artifact == key)
        = if 1 < (groupVersions direct transitive key).length then 1 else 0)
    ∧ analyzeConflicts [mkDep "lib" "core" (some "1.0")]
        [{ dep := mkDep "lib" "core" (some "2.0"), via := "other:dep:1.0",
           depth := 3 }]
        = [{ artifact := "lib:core", versions := ["1.0", "2.0"],
             sources :=
               [⟨some "1.0", "direct", none, "compile"⟩,
                ⟨some "2.0", "transitive", some "other:dep:1.0", "compile"⟩] }] := by
  constructor
  · intro direct transitive key
    unfold analyzeConflicts
    rw [countP_artifact_filterMap _ ?hf key _
      (nodup_dedupKeys ((collectOccs direct transitive).map Prod.fst))]
    case hf =>
      intro k c hkc
      by_cases h : 1 < (dedupKeys (truthyVersions
          (((collectOccs direct transitive).filter (fun p => p.1 == k)).map
            Prod.snd))).length
      · rw [if_pos h] at hkc
        cases hkc
        rfl
      · rw [if_neg h] at hkc
        cases hkc
    have hgv : ∀ k, dedupKeys (truthyVersions
        (((collectOccs direct transitive).filter (fun p => p.1 == k)).map
          Prod.snd)) = groupVersions direct transitive k := fun _ => rfl
    simp only [hgv, mem_dedupKeys]
    by_cases hlen : 1 < (groupVersions direct transitive key).length
    · have hmem : key ∈ (collectOccs direct transitive).map Prod.fst := by
        by_contra hmem
        rw [groupVersions_eq_nil direct transitive key hmem] at hlen
        simp at hlen
      simp [hlen, hmem]
    · simp [hlen]
  · decide

/-! ### Tree assembly (`_build_tree_structure`, lines 316-339) -/

/-- One node of the assembled tree: a direct dependency with the transitive
entries attached as its children.  In the source the children are the
transitive dicts themselves — they carry no "children" entry of their own —
so child nodes structurally have no further children and the tree has depth
at most two. -/
structure TreeNode where
  dep : Dep
  children : List TransDep
deriving DecidableEq, Repr

/-- `_build_tree_structure`: group the transitive entries by their "via" key
(an entry with a falsy — empty — via is dropped by the `if parent:` test at
line 325), then attach to each direct dependency the group matching its
`f"{groupId}:{artifactId}:{version}"` key (line 332, with the same
stored-`None` behaviour of `dep.get('version', 'unknown')` as in the walk),
defaulting to no children. -/
def buildTreeStructure (direct : List Dep) (transitive : List TransDep) :
    List TreeNode :=
  direct.map (fun d =>
    { dep := d,
      children :=
        transitive.filter (fun t => !(t.via == "") && t.via == depKey d) })

/-- **C10**: the assembled tree has depth at most two: its nodes are exactly
the direct dependencies in order; every child attached to a direct
dependency is a transitive entry whose via key equals that dependency's
coordinate key (and, being a transitive record, carries no children of its
own); and a transitive entry whose via key matches no direct dependency's
key appears nowhere in the tree. -/
theorem tree_depth_at_most_two
    (direct : List Dep) (transitive : List TransDep) :
    ((buildTreeStructure direct transitive).map TreeNode.dep = direct)
    ∧ (∀ node ∈ buildTreeStructure direct transitive, ∀ c ∈ node.children,
        c.via = depKey node.dep ∧ c ∈ transitive)
    ∧ (∀ t ∈ transitive, (∀ d ∈ direct, t.via ≠ depKey d) →
        ∀ node ∈ buildTreeStructure direct transitive, t ∉ node.children) := by
  refine ⟨?_, ?_, ?_⟩
  · simp [buildTreeStructure, List.map_map]
    exact List.map_id direct
  · intro node hnode c hc
    obtain ⟨d, hd, hnd⟩ := List.mem_map.mp hnode
    subst hnd
    have hc2 : c ∈ transitive.filter
        (fun t => !(t.via == "") && t.via == depKey d) := hc
    obtain ⟨hcmem, hckeep⟩ := List.mem_filter.mp hc2
    refine ⟨?_, hcmem⟩
    have := ((Bool.and_eq_true _ _).mp hckeep).2
    simpa using this
  · intro t ht hnomatch node hnode hc
    obtain ⟨d, hd, hnd⟩ := List.mem_map.mp hnode
    subst hnd
    have hc2 : t ∈ transitive.filter
        (fun u => !(u.via == "") && u.via == depKey d) := hc
    obtain ⟨hcmem, hckeep⟩ := List.mem_filter.mp hc2
    have := ((Bool.and_eq_true _ _).mp hckeep).2
    exact hnomatch d hd (by simpa using this)

/-- Witness for `tree_depth_at_most_two`: a transitive entry introduced at
depth two or deeper (its via key matches no direct dependency) is absent
from the tree. -/
theorem tree_depth_at_most_two_witness :
    ({ dep := mkDep "w" "b" (some "1.0"), via := "deep:dep:1.0", depth := 2 }
        : TransDep)
      ∉ ({ dep := mkDep "w" "a" (some "1.0"), children := [] } : TreeNode).children :=
  (tree_depth_at_most_two [mkDep "w" "a" (some "1.0")]
      [{ dep := mkDep "w" "b" (some "1.0"), via := "deep:dep:1.0", depth := 2 }]).2.2
    { dep := mkDep "w" "b" (some "1.0"), via := "deep:dep:1.0", depth := 2 }
    (by decide) (by decide)
    { dep := mkDep "w" "a" (some "1.0"), children := [] } (by decide)

/-! ### Property substitution (`_resolve_properties`, lines 167-179) -/

/-- A Python property dict, observed through `properties.get`. -/
def Props : Type := String → Option String

/-- Split a character list at the first closing brace: the segment before it
(the greedy `[^\x7d]+` part of the regex, which stops at the first closing
brace since that character is excluded) and the remainder after it; `none`
when no closing brace exists. -/
def splitAtBrace : List Char → Option (List Char × List Char)
  | [] => none
  | c :: rest =>
    if c = '\x7d' then some ([], rest)
    else match splitAtBrace rest with
      | none => none
      | some (nm, r) => some (c :: nm, r)

theorem splitAtBrace_sound :
    ∀ (l nm r : List Char), splitAtBrace l = some (nm, r) →
      l = nm ++ '\x7d' :: r := by
  intro l
  induction l with
  | nil => intro nm r h; cases h
  | cons c rest ih =>
    intro nm r h
    simp only [splitAtBrace] at h
    by_cases hc : c = '\x7d'
    · rw [if_pos hc] at h
      injection h with h
      injection h with h1 h2
      subst h1
      subst h2
      simp [hc]
    · rw [if_neg hc] at h
      cases hsp : splitAtBrace rest with
      | none => rw [hsp] at h; cases h
      | some pr =>
        rw [hsp] at h
        injection h with h
        injection h with h1 h2
        subst h1
        subst h2
        have hrest := ih pr.1 pr.2 (by rw [hsp])
        rw [hrest]
        rfl

theorem splitAtBrace_length (l nm r : List Char)
    (h : splitAtBrace l = some (nm, r)) : r.length < l.length := by
  have := splitAtBrace_sound l nm r h
  subst this
  simp
  omega

/-- Reconstruction direction: a brace-free nonempty name followed by a
closing brace splits back into itself. -/
theorem splitAtBrace_of_no_brace :
    ∀ (nm r : List Char), (∀ c ∈ nm, c ≠ '\x7d') →
      splitAtBrace (nm ++ '\x7d' :: r) = some (nm, r) := by
  intro nm
  induction nm with
  | nil =>
    intro r _
    simp [splitAtBrace]
  | cons c nmtail ih =>
    intro r hnb
    have hc : c ≠ '\x7d' := hnb c (List.mem_cons_self _ _)
    have htail : ∀ x ∈ nmtail, x ≠ '\x7d' :=
      fun x hx => hnb x (List.mem_cons_of_mem _ hx)
    simp only [List.cons_append, splitAtBrace, if_neg hc]
    rw [show nmtail.append ('\x7d' :: r) = nmtail ++ '\x7d' :: r from rfl,
      ih r htail]

/-- The one left-to-right pass of `re.sub` with the pattern of line 173
(dollar, opening brace, one or more non-closing-brace characters, closing
brace) over the character list: at each position, if the pattern matches,
the whole match is replaced by `properties.get(name, match.group(0))` and
scanning resumes *after* the match (the replacement is never rescanned);
otherwise the character is copied and scanning advances one position.  In
the dollar-without-match branches the copied dollar's following opening
brace is emitted in the same step (a match can only start at a dollar, so
advancing one position past the dollar and then copying the brace is the
same as copying both), keeping the recursion on a structurally smaller
suffix. -/
def substAux (props : Props) : List Char → List Char
  | [] => []
  | c :: rest =>
    if c = '$' then
      match rest with
      | '\x7b' :: rest2 =>
        match hsp : splitAtBrace rest2 with
        | some (nm, r) =>
          if nm.isEmpty then c :: '\x7b' :: substAux props rest2
          else
            match props (String.mk nm) with
            | some v => v.data ++ substAux props r
            | none => c :: '\x7b' :: (nm ++ '\x7d' :: substAux props r)
        | none => c :: '\x7b' :: substAux props rest2
      | [] => [c]
      | c2 :: rest2 => c :: substAux props (c2 :: rest2)
    else c :: substAux props rest
termination_by l => l.length
decreasing_by
  all_goals simp only [List.length_cons]
  all_goals try omega
  all_goals exact Nat.lt_of_lt_of_le (splitAtBrace_length _ _ _ hsp) (by omega)

/-- `_resolve_properties` (lines 167-179): replace every `${name}` regex
match in one pass; an unmatched or unresolved placeholder stays literal.
The empty string is returned as-is (the `if not value` guard). -/
def resolveProperties (value : String) (props : Props) : String :=
  String.mk (substAux props value.data)

theorem substAux_nil (props : Props) : substAux props [] = [] := by
  simp [substAux]

theorem substAux_cons_ne (props : Props) (c : Char) (l : List Char)
    (hc : c ≠ '$') : substAux props (c :: l) = c :: substAux props l := by
  rw [substAux.eq_def]
  simp [hc]

theorem substAux_append_clean (props : Props) :
    ∀ (p l : List Char), (∀ c ∈ p, c ≠ '$') →
      substAux props (p ++ l) = p ++ substAux props l := by
  intro p
  induction p with
  | nil => intro l _; rfl
  | cons c ptail ih =>
    intro l hp
    rw [List.cons_append,
      substAux_cons_ne props c _ (hp c (List.mem_cons_self _ _)),
      ih l (fun x hx => hp x (List.mem_cons_of_mem _ hx))]
    rfl

theorem substAux_placeholder_found (props : Props) (nm r : List Char)
    (v : String) (hne : nm ≠ []) (hnb : ∀ c ∈ nm, c ≠ '\x7d')
    (hpv : props (String.mk nm) = some v) :
    substAux props ('$' :: '\x7b' :: (nm ++ '\x7d' :: r))
      = v.data ++ substAux props r := by
  have hsp0 : splitAtBrace (nm ++ '\x7d' :: r) = some (nm, r) :=
    splitAtBrace_of_no_brace nm r hnb
  have hie : nm.isEmpty = false := by
    cases nm with
    | nil => exact absurd rfl hne
    | cons a b => rfl
  simp only [substAux]
  split
  · split
    · next nm1 r1 heq =>
      rw [hsp0] at heq
      injection heq with heq
      injection heq with h1 h2
      subst h1
      subst h2
      rw [if_neg (by simp [hie])]
      split
      · next v1 hv =>
        rw [hpv] at hv
        injection hv with hv
        subst hv
        rfl
      · next hv =>
        rw [hpv] at hv
        cases hv
    · next heq =>
      rw [hsp0] at heq
      cases heq
  · next h => exact absurd trivial h

theorem substAux_placeholder_missing (props : Props) (nm r : List Char)
    (hne : nm ≠ []) (hnb : ∀ c ∈ nm, c ≠ '\x7d')
    (hpv : props (String.mk nm) = none) :
    substAux props ('$' :: '\x7b' :: (nm ++ '\x7d' :: r))
      = '$' :: '\x7b' :: (nm ++ '\x7d' :: substAux props r) := by
  have hsp0 : splitAtBrace (nm ++ '\x7d' :: r) = some (nm, r) :=
    splitAtBrace_of_no_brace nm r hnb
  have hie : nm.isEmpty = false := by
    cases nm with
    | nil => exact absurd rfl hne
    | cons a b => rfl
  simp only [substAux]
  split
  · split
    · next nm1 r1 heq =>
      rw [hsp0] at heq
      injection heq with heq
      injection heq with h1 h2
      subst h1
      subst h2
      rw [if_neg (by simp [hie])]
      split
      · next v1 hv =>
        rw [hpv] at hv
        cases hv
      · next hv => rfl
    · next heq =>
      rw [hsp0] at heq
      cases heq
  · next h => exact absurd trivial h

/-- **C6**: for every property table, a placeholder occurrence whose name is
a key of the table is replaced by the table's value verbatim, one whose name
is absent stays literal text, the substitution is a total function (the
embedded `re.sub` never fails), and it is one-pass: the inserted value lands
in the output verbatim and scanning continues after the placeholder, so a
value that itself contains a placeholder is not re-expanded. -/
theorem substitution_one_pass_verbatim (props : Props) (p n s v : String)
    (hp : ∀ c ∈ p.data, c ≠ '$') (hn : n ≠ "")
    (hnb : ∀ c ∈ n.data, c ≠ '\x7d') :
    (props n = some v →
      resolveProperties (p ++ "$\x7b" ++ n ++ "\x7d" ++ s) props
        = p ++ v ++ resolveProperties s props)
    ∧ (props n = none →
      resolveProperties (p ++ "$\x7b" ++ n ++ "\x7d" ++ s) props
        = p ++ "$\x7b" ++ n ++ "\x7d" ++ resolveProperties s props) := by
  have hn2 : n.data ≠ [] := by
    intro h
    exact hn (String.ext (by rw [h]))
  have hdata : (p ++ "$\x7b" ++ n ++ "\x7d" ++ s).data
      = p.data ++ ('$' :: '\x7b' :: (n.data ++ '\x7d' :: s.data)) := by
    simp [String.data_append, List.append_assoc]
  constructor
  · intro hpv
    apply String.ext
    rw [show (resolveProperties (p ++ "$\x7b" ++ n ++ "\x7d" ++ s) props).data
        = substAux props ((p ++ "$\x7b" ++ n ++ "\x7d" ++ s).data) from rfl]
    rw [hdata, substAux_append_clean props p.data _ hp,
      substAux_placeholder_found props n.data s.data v hn2 hnb hpv]
    simp [String.data_append, resolveProperties, List.append_assoc]
  · intro hpv
    apply String.ext
    rw [show (resolveProperties (p ++ "$\x7b" ++ n ++ "\x7d" ++ s) props).data
        = substAux props ((p ++ "$\x7b" ++ n ++ "\x7d" ++ s).data) from rfl]
    rw [hdata, substAux_append_clean props p.data _ hp,
      substAux_placeholder_missing props n.data s.data hn2 hnb hpv]
    simp [String.data_append, resolveProperties, List.append_assoc]

/-- Property table with one binding, for the substitution witness. -/
def propsEx : Props := fun k =>
  if k = "core.version" then some "3.2.1" else none

/-- Property table whose value for "a" itself contains a placeholder, for
the one-pass half of the substitution witness. -/
def propsNested : Props := fun k =>
  if k = "a" then some "$\x7bb\x7d"
  else if k = "b" then some "X" else none

/-- Witness for `substitution_one_pass_verbatim`: a found name substitutes
verbatim, and a value containing a placeholder is not re-expanded. -/
theorem substitution_one_pass_verbatim_witness :
    (propsEx "core.version" = some "3.2.1"
      ∧ resolveProperties ("ver-" ++ "$\x7b" ++ "core.version" ++ "\x7d" ++ "")
          propsEx
        = "ver-" ++ "3.2.1" ++ resolveProperties "" propsEx)
    ∧ (propsNested "a" = some "$\x7bb\x7d"
      ∧ resolveProperties ("" ++ "$\x7b" ++ "a" ++ "\x7d" ++ "") propsNested
        = "" ++ "$\x7bb\x7d" ++ resolveProperties "" propsNested) :=
  ⟨⟨rfl, (substitution_one_pass_verbatim propsEx "ver-" "core.version" ""
      "3.2.1" (by decide) (by decide) (by decide)).1 rfl⟩,
   ⟨rfl, (substitution_one_pass_verbatim propsNested "" "a" ""
      "$\x7bb\x7d" (by decide) (by decide) (by decide)).1 rfl⟩⟩

/-! ### Parent properties (`analyze_dependencies` lines 50-69 and
`_get_parent_properties` lines 181-192) -/

/-- Python `dict.update`: the entries of `upd` overwrite those of `base`. -/
def dictUpdate (base upd : Props) : Props :=
  fun k => match upd k with
    | some v => some v
    | none => base k

/-- Line 69, `result["properties"].update(parent_props)`: the table the
analyzer subsequently hands to `_extract_dependency_info` for dependency
substitution is the child's local properties updated with the parent's
resolved properties — so on a key collision the *parent's* entry wins. -/
def mergedProperties (localProps parentProps : Props) : Props :=
  dictUpdate localProps parentProps

/-- The property-relevant content of one parsed descriptor: its literal
local properties (lines 51-55) and its parent coordinate if declared
(lines 57-65). -/
structure ParsedPom where
  localProps : Props
  parent : Option (String × String × String)

/-- Descriptor repository for property resolution: `none` models a missing
or unparseable descriptor (either way `analyze_dependencies` returns an
error dict carrying no "properties" entry). -/
def PomRepo : Type := String → String → String → Option ParsedPom

/-- The property table `analyze_dependencies` builds before extracting
dependencies (lines 50-69): the local properties, updated with the parent's
resolved properties when a parent is declared.  The inner match is
`_get_parent_properties` inlined: any failure analyzing the parent yields
the empty table.  `fuel` bounds the parent chain; exhaustion models the
Python `RecursionError` a cyclic parent chain raises (an `Exception` caught
by `_get_parent_properties`, again yielding the empty table). -/
def resolvedProps (repo : PomRepo) : Nat → String → String → String → Option Props
  | 0, _, _, _ => none
  | fuel + 1, g, a, v =>
    match repo g a v with
    | none => none
    | some pom =>
      match pom.parent with
      | none => some pom.localProps
      | some pc =>
        some (mergedProperties pom.localProps
          (match resolvedProps repo fuel pc.1 pc.2.1 pc.2.2 with
            | none => fun _ => none
            | some p => p))

/-- `_get_parent_properties` (lines 181-192): analyze the parent descriptor
non-transitively and return its "properties" table; any failure — missing
descriptor, parse error, recursion blow-up — yields the empty table. -/
def getParentProperties (repo : PomRepo) (fuel : Nat) (g a v : String) : Props :=
  match resolvedProps repo fuel g a v with
  | none => fun _ => none
  | some p => p

/-- Child property table of the collision scenario. -/
def childPropsEx : Props := fun k =>
  if k = "shared.key" then some "child-value"
  else if k = "child.only" then some "c2" else none

/-- Parent property table of the collision scenario. -/
def parentPropsEx : Props := fun k =>
  if k = "shared.key" then some "parent-value" else none

/-- **C1** (contradicting the claim — the code is the slip): on a key
declared by both the child and its parent, the merged table handed to
dependency substitution carries the *parent's* value, because line 69 runs
`child_table.update(parent_props)`, letting the parent overwrite the child;
keys declared only on one side are still unioned.  Dependency substitution
through the merged table accordingly resolves the colliding placeholder to
the parent's value. -/
theorem parent_overwrites_child_on_collision :
    childPropsEx "shared.key" = some "child-value"
    ∧ parentPropsEx "shared.key" = some "parent-value"
    ∧ mergedProperties childPropsEx parentPropsEx "shared.key"
        = some "parent-value"
    ∧ mergedProperties childPropsEx parentPropsEx "child.only" = some "c2"
    ∧ resolveProperties ("" ++ "$\x7b" ++ "shared.key" ++ "\x7d" ++ "")
        (mergedProperties childPropsEx parentPropsEx)
      = "" ++ "parent-value" ++ "" := by
  refine ⟨rfl, rfl, rfl, rfl, ?_⟩
  have h := substAux_placeholder_found
    (mergedProperties childPropsEx parentPropsEx)
    ("shared.key".data) [] "parent-value" (by decide) (by decide) rfl
  apply String.ext
  rw [show (resolveProperties ("" ++ "$\x7b" ++ "shared.key" ++ "\x7d" ++ "")
      (mergedProperties childPropsEx parentPropsEx)).data
    = substAux (mergedProperties childPropsEx parentPropsEx)
        ('$' :: '\x7b' :: ("shared.key".data ++ '\x7d' :: [])) from rfl]
  rw [h, substAux_nil]
  decide

/-- **C8**: a missing or unparseable parent descriptor contributes an empty
property table — `_get_parent_properties` maps every failure to the empty
dict, and the embedded functions are total, so nothing is raised — and the
child's resolution proceeds with exactly its local properties. -/
theorem missing_parent_gives_empty_table
    (repo : PomRepo) (fuel : Nat) (g a v pg pa pv : String) (pom : ParsedPom)
    (hmiss : repo pg pa pv = none)
    (hchild : repo g a v = some pom)
    (hparent : pom.parent = some (pg, pa, pv)) :
    (∀ k, getParentProperties repo fuel pg pa pv k = none)
    ∧ resolvedProps repo (fuel + 1) g a v
        = some (mergedProperties pom.localProps
            (getParentProperties repo fuel pg pa pv))
    ∧ (∀ k, mergedProperties pom.localProps
        (getParentProperties repo fuel pg pa pv) k = pom.localProps k) := by
  have haux : resolvedProps repo fuel pg pa pv = none := by
    cases fuel with
    | zero => rfl
    | succ f => simp [resolvedProps, hmiss]
  have hempty : ∀ k, getParentProperties repo fuel pg pa pv k = none := by
    intro k
    unfold getParentProperties
    rw [haux]
  refine ⟨hempty, ?_, ?_⟩
  · simp only [resolvedProps, hchild, hparent, getParentProperties]
  · intro k
    unfold mergedProperties dictUpdate
    rw [hempty k]

/-- Concrete child descriptor content for the missing-parent witness. -/
def childLocalEx : Props := fun k => if k = "x" then some "1" else none

/-- Repository holding only the child descriptor, whose declared parent is
absent. -/
def repoPar : PomRepo := fun g a v =>
  if g = "c" ∧ a = "c" ∧ v = "1" then
    some { localProps := childLocalEx, parent := some ("p", "p", "1") }
  else none

/-- Witness for `missing_parent_gives_empty_table` at the concrete
missing-parent scenario. -/
theorem missing_parent_gives_empty_table_witness :
    getParentProperties repoPar 3 "p" "p" "1" "x" = none
    ∧ mergedProperties childLocalEx (getParentProperties repoPar 3 "p" "p" "1") "x"
        = childLocalEx "x" :=
  ⟨(missing_parent_gives_empty_table repoPar 3 "c" "c" "1" "p" "p" "1"
      { localProps := childLocalEx, parent := some ("p", "p", "1") }
      rfl rfl rfl).1 "x",
   (missing_parent_gives_empty_table repoPar 3 "c" "c" "1" "p" "p" "1"
      { localProps := childLocalEx, parent := some ("p", "p", "1") }
      rfl rfl rfl).2.2 "x"⟩

end Maven
